import Mathlib

/-!
Shallow embedding of `src/StockTradingEngine.cpp` (Prathameshchakote/Stock-trading-engine-).

Modelling choices:
* C `int` and `long long` become `Int` (no arithmetic in the engine can overflow for
  the validated inputs the claims are about; the `INT_MAX` sentinel of `matchOrder`
  is kept as the literal `2147483647`).
* C `double` prices are used only through comparisons (`>=`, `<`, `>`, `==`) and are
  copied, never combined arithmetically, so `ℚ` models them faithfully.
* A ticker symbol is the list of the `char` values of the C string before its NUL
  terminator.  On the reference platform (x86-64 Linux) `char` is signed, so a
  character value lies in [-128,127] and a byte ≥ 0x80 appears as a negative value.
* The engine's global state (`orders` array, `order_count`, `next_order_id`) is an
  explicit `EngineState`.  The fixed array of `MAX_ORDERS` slots starts all-inactive
  and slots `[0, next_order_id)` are the only ones ever written, so the state keeps
  exactly that written prefix as a list; an index beyond it reads as an inactive
  default order, which both `matchOrder`'s entry guard and its scan skip, making the
  list view equivalent to the fixed array.
* Execution is sequential (single caller): the CAS claim loop of `addOrder` then
  always succeeds on the first attempt, claiming slot `next_order_id` and bumping
  the cursor; `get_current_timestamp` is nondeterministic real time, so the
  timestamp is an explicit parameter of `addOrder`.
* The `std::cout` trade line becomes a returned `Option Trade` record carrying the
  three printed values (matched quantity, ticker key, execution price).
-/

/-- `struct Order` of the source: side (0 = Buy, 1 = Sell), ticker key, remaining
quantity, price, admission timestamp, active flag. -/
structure Order where
  order_type : Int
  ticker : Int
  quantity : Int
  price : ℚ
  timestamp : Int
  active : Bool
  deriving Repr, DecidableEq

/-- `const int NUM_TICKERS = 1024`. -/
def NUM_TICKERS : Int := 1024

/-- `const int MAX_ORDERS = 10000`. -/
def MAX_ORDERS : Nat := 10000

/-- `INT_MAX` on the reference platform. -/
def C_INT_MAX : Int := 2147483647

/-- The summation loop of `ticker_to_index`:
`for (i = 0; ticker_symbol[i] != '\0' && i < 4; ++i) sum += (int)ticker_symbol[i];`
`fuel` counts the remaining iterations before `i` reaches 4. -/
def tickerSum : Nat → List Int → Int
  | _, [] => 0
  | 0, _ :: _ => 0
  | fuel + 1, c :: rest => if c = 0 then 0 else c + tickerSum fuel rest

/-- `StockTradingEngine::ticker_to_index`: sum of the first (at most 4) character
values, then C's truncating `%` by `NUM_TICKERS`. -/
def ticker_to_index (sym : List Int) : Int :=
  Int.tmod (tickerSum 4 sym) NUM_TICKERS

/-- The three values printed for an executed trade:
`"Matched: " << match_qty << " shares of ticker " << new_order.ticker << " at price " << best_match_price`. -/
structure Trade where
  qty : Int
  ticker : Int
  price : ℚ
  deriving Repr, DecidableEq

/-- Engine state: the written prefix of the `orders` array (so the slot cursor
`next_order_id` is `orders.length`) and the atomic `order_count`. -/
structure EngineState where
  orders : List Order
  order_count : Int
  deriving Repr, DecidableEq

/-- A fresh engine: all slots inactive (none written), `order_count = 0`. -/
def initEngine : EngineState := ⟨[], 0⟩

/-- The best-match accumulator of `matchOrder`:
`best_match_id`, `best_match_price`, `best_match_timestamp`. -/
structure BestMatch where
  id : Int
  price : ℚ
  ts : Int
  deriving Repr, DecidableEq

/-- One iteration of the scan loop of `matchOrder`, for the order `o` in slot `i`. -/
def scanStep (newId : Nat) (newO : Order) (acc : BestMatch) (i : Nat) (o : Order) :
    BestMatch :=
  if i = newId then acc
  else if o.active = false then acc
  else if o.ticker ≠ newO.ticker then acc
  else if newO.order_type = 0 ∧ o.order_type = 1 then
    -- Buy order looking for lowest sell price
    if newO.price ≥ o.price then
      if o.price < acc.price ∨ (o.price = acc.price ∧ o.timestamp < acc.ts) then
        ⟨(i : Int), o.price, o.timestamp⟩
      else acc
    else acc
  else if newO.order_type = 1 ∧ o.order_type = 0 then
    -- Sell order looking for highest buy price
    if o.price ≥ newO.price then
      if o.price > acc.price ∨ (o.price = acc.price ∧ o.timestamp < acc.ts) then
        ⟨(i : Int), o.price, o.timestamp⟩
      else acc
    else acc
  else acc

/-- The scan loop of `matchOrder` from slot index `i` over the remaining slots `l`. -/
def scanFrom (newId : Nat) (newO : Order) : Nat → List Order → BestMatch → BestMatch
  | _, [], acc => acc
  | i, o :: rest, acc => scanFrom newId newO (i + 1) rest (scanStep newId newO acc i o)

/-- The whole scan of `matchOrder`: initial accumulator
`(-1, buy ? INT_MAX : -INT_MAX, INT_MAX)`, then the loop over every slot.
Slots beyond the written prefix hold the inactive default order and are skipped
by the loop, so scanning the written prefix is equivalent. -/
def findBest (orders : List Order) (newId : Nat) (newO : Order) : BestMatch :=
  scanFrom newId newO 0 orders
    ⟨-1, if newO.order_type = 0 then (C_INT_MAX : ℚ) else -(C_INT_MAX : ℚ), C_INT_MAX⟩

/-- `StockTradingEngine::matchOrder`.  Returns the state after the call together
with the trade record printed, if any.  The `while (true) { ...; break; }` body
runs at most once, so it is translated as straight-line conditionals. -/
def matchOrder (s : EngineState) (newId : Nat) : EngineState × Option Trade :=
  match s.orders[newId]? with
  | none => (s, none)          -- slot unwritten: default order, active = false
  | some newO =>
    if newO.active = false then (s, none)
    else
      let best := findBest s.orders newId newO
      if best.id = -1 then (s, none)
      else
        match s.orders[best.id.toNat]? with
        | none => (s, none)    -- unreachable: a selected slot is a written one
        | some mo =>
          if newO.active = false ∨ mo.active = false then (s, none)
          else if newO.quantity ≤ 0 ∨ mo.quantity ≤ 0 then (s, none)
          else
            let mq := min newO.quantity mo.quantity
            let newO' : Order :=
              if newO.quantity - mq ≤ 0 then
                { newO with quantity := newO.quantity - mq, active := false }
              else { newO with quantity := newO.quantity - mq }
            let mo' : Order :=
              if mo.quantity - mq ≤ 0 then
                { mo with quantity := mo.quantity - mq, active := false }
              else { mo with quantity := mo.quantity - mq }
            let d : Int :=
              (if newO.quantity - mq ≤ 0 then 1 else 0) +
                (if mo.quantity - mq ≤ 0 then 1 else 0)
            (⟨(s.orders.set newId newO').set best.id.toNat mo',
                s.order_count - d⟩,
              some ⟨mq, newO.ticker, best.price⟩)

/-- `StockTradingEngine::addOrder`.  `ts` is the value `get_current_timestamp()`
returned for this call.  Returns the new state, the `bool` result, and the trade
record of the triggered match attempt, if any. -/
def addOrder (s : EngineState) (order_type : Int) (sym : List Int) (quantity : Int)
    (price : ℚ) (ts : Int) : EngineState × Bool × Option Trade :=
  if order_type ≠ 0 ∧ order_type ≠ 1 then (s, false, none)
  else if quantity ≤ 0 ∨ price ≤ 0 then (s, false, none)
  else
    let ticker := ticker_to_index sym
    let slot := s.orders.length
    if MAX_ORDERS ≤ slot then (s, false, none)
    else
      let s1 : EngineState := ⟨s.orders ++ [⟨order_type, ticker, quantity, price, ts, true⟩],
        s.order_count + 1⟩
      let r := matchOrder s1 slot
      (r.1, true, r.2)

/-- `StockTradingEngine::getOrderCount`. -/
def getOrderCount (s : EngineState) : Int := s.order_count

/-- One admission request issued by a caller (with the timestamp its
`get_current_timestamp()` call produced). -/
structure Req where
  order_type : Int
  symbol : List Int
  quantity : Int
  price : ℚ
  ts : Int

/-- Run a sequence of `addOrder` calls. -/
def runEngine (s : EngineState) (reqs : List Req) : EngineState :=
  reqs.foldl (fun s r => (addOrder s r.order_type r.symbol r.quantity r.price r.ts).1) s

/-- Price-eligibility of a counter-order `o` for a triggering order `newO`
(the conjunction of the skip tests and the price test of the scan loop):
`o` is active, on the same ticker, on the opposite side, and a Buy accepts a
Sell priced at or below it while a Sell accepts a Buy priced at or above it. -/
def elig (newO o : Order) : Prop :=
  o.active = true ∧ o.ticker = newO.ticker ∧
    ((newO.order_type = 0 ∧ o.order_type = 1 ∧ o.price ≤ newO.price) ∨
      (newO.order_type = 1 ∧ o.order_type = 0 ∧ newO.price ≤ o.price))

instance (newO o : Order) : Decidable (elig newO o) := by
  unfold elig; infer_instance

/-- `(p₁, t₁)` is strictly better than `(p₂, t₂)` for the side `side` of the
triggering order: strictly better price (lower for a Buy, higher for a Sell),
or equal price and strictly earlier timestamp.  This is exactly the update
condition of the scan loop. -/
def lt2 (side : Int) (p₁ : ℚ) (t₁ : Int) (p₂ : ℚ) (t₂ : Int) : Prop :=
  (if side = 0 then p₁ < p₂ else p₂ < p₁) ∨ (p₁ = p₂ ∧ t₁ < t₂)

instance (side : Int) (p₁ : ℚ) (t₁ : Int) (p₂ : ℚ) (t₂ : Int) :
    Decidable (lt2 side p₁ t₁ p₂ t₂) := by
  unfold lt2; infer_instance

/-- Number of active orders in a pool. -/
def countActive (l : List Order) : Int :=
  (l.filter (fun o => o.active)).length

/-- `(p₁, t₁)` is at least as good as `(p₂, t₂)` for side `side`. -/
def le2 (side : Int) (p₁ : ℚ) (t₁ : Int) (p₂ : ℚ) (t₂ : Int) : Prop :=
  lt2 side p₁ t₁ p₂ t₂ ∨ (p₁ = p₂ ∧ t₁ = t₂)

/-- Number of accepted admissions (calls of `addOrder` returning `true`) along
a run. -/
def acceptedCount : EngineState → List Req → Nat
  | _, [] => 0
  | s, r :: reqs =>
    (if (addOrder s r.order_type r.symbol r.quantity r.price r.ts).2.1 = true then 1 else 0) +
      acceptedCount (addOrder s r.order_type r.symbol r.quantity r.price r.ts).1 reqs

theorem not_lt2_iff {side : Int} {p₁ p₂ : ℚ} {t₁ t₂ : Int} :
    ¬ lt2 side p₁ t₁ p₂ t₂ ↔ le2 side p₂ t₂ p₁ t₁ := by
  unfold le2 lt2
  by_cases hs : side = 0
  · simp only [if_pos hs]
    rcases lt_trichotomy p₁ p₂ with hp | hp | hp
    · simp [hp, hp.asymm, hp.ne, hp.ne']
    · subst hp
      simp
      omega
    · simp [hp, hp.asymm, hp.ne, hp.ne']
  · simp only [if_neg hs]
    rcases lt_trichotomy p₁ p₂ with hp | hp | hp
    · simp [hp, hp.asymm, hp.ne, hp.ne']
    · subst hp
      simp
      omega
    · simp [hp, hp.asymm, hp.ne, hp.ne']

theorem le2_refl {side : Int} {p : ℚ} {t : Int} : le2 side p t p t :=
  Or.inr ⟨rfl, rfl⟩

theorem le2_trans {side : Int} {p₁ p₂ p₃ : ℚ} {t₁ t₂ t₃ : Int}
    (h₁ : le2 side p₁ t₁ p₂ t₂) (h₂ : le2 side p₂ t₂ p₃ t₃) :
    le2 side p₁ t₁ p₃ t₃ := by
  unfold le2 lt2 at h₁ h₂ ⊢
  by_cases hs : side = 0
  · simp only [if_pos hs] at h₁ h₂ ⊢
    rcases h₁ with (hp₁ | ⟨hp₁, ht₁⟩) | ⟨hp₁, ht₁⟩ <;>
      rcases h₂ with (hp₂ | ⟨hp₂, ht₂⟩) | ⟨hp₂, ht₂⟩ <;>
      subst_eqs <;>
      first
        | (left; left; linarith)
        | (simp <;> omega)
  · simp only [if_neg hs] at h₁ h₂ ⊢
    rcases h₁ with (hp₁ | ⟨hp₁, ht₁⟩) | ⟨hp₁, ht₁⟩ <;>
      rcases h₂ with (hp₂ | ⟨hp₂, ht₂⟩) | ⟨hp₂, ht₂⟩ <;>
      subst_eqs <;>
      first
        | (left; left; linarith)
        | (simp <;> omega)

theorem bool_eq_true_of_not_false {b : Bool} (h : ¬ b = false) : b = true := by
  cases b
  · exact absurd rfl h
  · rfl

/-- Each scan iteration either keeps the accumulator or moves it to the scanned
order, in which case that order is eligible and strictly better (price, then
timestamp) than the accumulator. -/
theorem scanStep_cases (newId : Nat) (newO : Order) (acc : BestMatch) (i : Nat) (o : Order) :
    scanStep newId newO acc i o = acc ∨
      (scanStep newId newO acc i o = ⟨(i : Int), o.price, o.timestamp⟩ ∧
        i ≠ newId ∧ elig newO o ∧
        lt2 newO.order_type o.price o.timestamp acc.price acc.ts) := by
  unfold scanStep
  split_ifs with h1 h2 h3 h4 h5 h6 h7 h8 h9
  · exact Or.inl rfl
  · exact Or.inl rfl
  · exact Or.inl rfl
  · refine Or.inr ⟨rfl, h1, ?_, ?_⟩
    · refine ⟨bool_eq_true_of_not_false h2, not_not.mp h3, Or.inl ⟨h4.1, h4.2, h5⟩⟩
    · unfold lt2
      rw [if_pos h4.1]
      exact h6
  · exact Or.inl rfl
  · exact Or.inl rfl
  · refine Or.inr ⟨rfl, h1, ?_, ?_⟩
    · refine ⟨bool_eq_true_of_not_false h2, not_not.mp h3, Or.inr ⟨h7.1, h7.2, h8⟩⟩
    · unfold lt2
      rw [if_neg (by rw [h7.1]; norm_num)]
      exact h9
  · exact Or.inl rfl
  · exact Or.inl rfl
  · exact Or.inl rfl

/-- If the scanned order is eligible and strictly better than the accumulator,
the iteration selects it. -/
theorem scanStep_update (newId : Nat) (newO : Order) (acc : BestMatch) (i : Nat) (o : Order)
    (hne : i ≠ newId) (he : elig newO o)
    (hlt : lt2 newO.order_type o.price o.timestamp acc.price acc.ts) :
    scanStep newId newO acc i o = ⟨(i : Int), o.price, o.timestamp⟩ := by
  obtain ⟨hact, htick, hside⟩ := he
  unfold scanStep
  rw [if_neg hne, if_neg (by rw [hact]; norm_num), if_neg (by rw [htick]; exact not_not.mpr rfl)]
  rcases hside with ⟨h0, h1, hpr⟩ | ⟨h0, h1, hpr⟩
  · rw [if_pos ⟨h0, h1⟩, if_pos hpr, if_pos ?_]
    unfold lt2 at hlt
    rw [if_pos h0] at hlt
    exact hlt
  · rw [if_neg (by rw [h0]; norm_num), if_pos ⟨h0, h1⟩, if_pos hpr, if_pos ?_]
    unfold lt2 at hlt
    rw [if_neg (by rw [h0]; norm_num)] at hlt
    exact hlt

/-- One scan iteration never worsens the accumulator. -/
theorem scanStep_le (newId : Nat) (newO : Order) (acc : BestMatch) (i : Nat) (o : Order) :
    le2 newO.order_type (scanStep newId newO acc i o).price (scanStep newId newO acc i o).ts
      acc.price acc.ts := by
  rcases scanStep_cases newId newO acc i o with h | ⟨h, _, _, hlt⟩
  · rw [h]
    exact le2_refl
  · rw [h]
    exact Or.inl hlt

/-- The whole scan never worsens the accumulator. -/
theorem scanFrom_le (newId : Nat) (newO : Order) :
    ∀ (l : List Order) (i : Nat) (acc : BestMatch),
      le2 newO.order_type (scanFrom newId newO i l acc).price (scanFrom newId newO i l acc).ts
        acc.price acc.ts
  | [], _, _ => le2_refl
  | o :: rest, i, acc =>
    le2_trans (scanFrom_le newId newO rest (i + 1) (scanStep newId newO acc i o))
      (scanStep_le newId newO acc i o)

/-- Soundness of the scan: if the accumulator ends with `best_match_id ≠ -1`, it
designates a written slot distinct from the triggering order holding an eligible
order, and carries that order's price and timestamp.  `l` is the suffix of the
full pool `full` starting at slot `i`. -/
theorem scanFrom_sound (newId : Nat) (newO : Order) (full : List Order) :
    ∀ (l : List Order) (i : Nat) (acc : BestMatch),
      (∀ j : Nat, l[j]? = full[i + j]?) →
      (acc.id ≠ -1 → ∃ (k : Nat) (o : Order), acc.id = (k : Int) ∧ k ≠ newId ∧
        full[k]? = some o ∧ elig newO o ∧ acc.price = o.price ∧ acc.ts = o.timestamp) →
      (scanFrom newId newO i l acc).id ≠ -1 →
        ∃ (k : Nat) (o : Order), (scanFrom newId newO i l acc).id = (k : Int) ∧ k ≠ newId ∧
          full[k]? = some o ∧ elig newO o ∧
          (scanFrom newId newO i l acc).price = o.price ∧
          (scanFrom newId newO i l acc).ts = o.timestamp
  | [], i, acc, _, hacc, hid => hacc hid
  | o :: rest, i, acc, hlink, hacc, hid => by
    refine scanFrom_sound newId newO full rest (i + 1) (scanStep newId newO acc i o) ?_ ?_ hid
    · intro j
      have h := hlink (j + 1)
      simpa [Nat.add_assoc, Nat.add_comm 1 j] using h
    · intro hstep
      rcases scanStep_cases newId newO acc i o with h | ⟨h, hne, he, _⟩
      · rw [h] at hstep ⊢
        exact hacc hstep
      · rw [h]
        refine ⟨i, o, rfl, hne, ?_, he, rfl, rfl⟩
        have h0 := hlink 0
        simpa using h0.symm

/-- Optimality of the scan: no eligible order in the scanned suffix is strictly
better than the final accumulator. -/
theorem scanFrom_opt (newId : Nat) (newO : Order) :
    ∀ (l : List Order) (i : Nat) (acc : BestMatch) (j : Nat) (o : Order),
      l[j]? = some o → (i + j) ≠ newId → elig newO o →
      ¬ lt2 newO.order_type o.price o.timestamp
          (scanFrom newId newO i l acc).price (scanFrom newId newO i l acc).ts
  | [], _, _, j, o, hj, _, _ => by simp at hj
  | o₀ :: rest, i, acc, j, o, hj, hne, he => by
    match j with
    | 0 =>
      have ho : o₀ = o := by simpa using hj
      subst ho
      have hne' : i ≠ newId := by simpa using hne
      by_cases hlt : lt2 newO.order_type o₀.price o₀.timestamp acc.price acc.ts
      · have hstep := scanStep_update newId newO acc i o₀ hne' he hlt
        have hle := scanFrom_le newId newO rest (i + 1) (scanStep newId newO acc i o₀)
        rw [hstep] at hle
        rw [show scanFrom newId newO i (o₀ :: rest) acc
            = scanFrom newId newO (i + 1) rest (scanStep newId newO acc i o₀) from rfl, hstep]
        exact not_lt2_iff.mpr hle
      · have hle1 := scanFrom_le newId newO rest (i + 1) (scanStep newId newO acc i o₀)
        have hle2 := scanStep_le newId newO acc i o₀
        have hle3 : le2 newO.order_type acc.price acc.ts o₀.price o₀.timestamp :=
          not_lt2_iff.mp hlt
        exact not_lt2_iff.mpr (le2_trans (le2_trans hle1 hle2) hle3)
    | j' + 1 =>
      have hj' : rest[j']? = some o := by simpa using hj
      have hne' : (i + 1 + j') ≠ newId := by omega
      exact scanFrom_opt newId newO rest (i + 1) (scanStep newId newO acc i o₀) j' o hj' hne' he

/-- If the scan ends with `best_match_id = -1`, the accumulator was never moved,
and no eligible order in the scanned suffix is strictly better than it. -/
theorem scanFrom_id_neg (newId : Nat) (newO : Order) :
    ∀ (l : List Order) (i : Nat) (acc : BestMatch),
      (scanFrom newId newO i l acc).id = -1 →
        scanFrom newId newO i l acc = acc ∧
        ∀ (j : Nat) (o : Order), l[j]? = some o → (i + j) ≠ newId → elig newO o →
          ¬ lt2 newO.order_type o.price o.timestamp acc.price acc.ts
  | [], _, _, _ => ⟨rfl, by intro j o hj; simp at hj⟩
  | o₀ :: rest, i, acc, hid => by
    have hrec : scanFrom newId newO i (o₀ :: rest) acc
        = scanFrom newId newO (i + 1) rest (scanStep newId newO acc i o₀) := rfl
    rw [hrec] at hid
    obtain ⟨heq, hall⟩ := scanFrom_id_neg newId newO rest (i + 1) (scanStep newId newO acc i o₀) hid
    have hstep : scanStep newId newO acc i o₀ = acc := by
      rcases scanStep_cases newId newO acc i o₀ with h | ⟨h, _, _, _⟩
      · exact h
      · exfalso
        rw [heq, h] at hid
        have hpr : BestMatch.id ⟨(i : Int), o₀.price, o₀.timestamp⟩ = (i : Int) := rfl
        rw [hpr] at hid
        omega
    refine ⟨by rw [hrec, heq, hstep], ?_⟩
    intro j o hj hne he
    match j with
    | 0 =>
      have ho : o₀ = o := by simpa using hj
      subst ho
      have hne' : i ≠ newId := by simpa using hne
      intro hlt
      have hupd := scanStep_update newId newO acc i o₀ hne' he hlt
      have hacc : acc = ⟨(i : Int), o₀.price, o₀.timestamp⟩ := by rw [← hstep, hupd]
      have hproj : acc.id = (i : Int) := by rw [hacc]
      rw [heq, hstep] at hid
      rw [hproj] at hid
      omega
    | j' + 1 =>
      have hj' : rest[j']? = some o := by simpa using hj
      have hne' : (i + 1 + j') ≠ newId := by omega
      have := hall j' o hj' hne' he
      rw [hstep] at this
      exact this

/-- Soundness of `findBest`: a selected `best_match_id` designates a written slot
other than the triggering one that holds an eligible counter-order, and
`best_match_price` / `best_match_timestamp` are that order's price and timestamp. -/
theorem findBest_sound {orders : List Order} {newId : Nat} {newO : Order}
    (h : (findBest orders newId newO).id ≠ -1) :
    ∃ (k : Nat) (mo : Order), (findBest orders newId newO).id = (k : Int) ∧ k ≠ newId ∧
      orders[k]? = some mo ∧ elig newO mo ∧
      (findBest orders newId newO).price = mo.price ∧
      (findBest orders newId newO).ts = mo.timestamp := by
  refine scanFrom_sound newId newO orders orders 0 _ ?_ ?_ h
  · intro j
    simp
  · intro habs
    exact absurd rfl habs

/-- Optimality of `findBest`: no eligible counter-order anywhere in the pool is
strictly better (by price, then timestamp) than the final accumulator. -/
theorem findBest_opt {orders : List Order} {newId : Nat} {newO : Order}
    {j : Nat} {o : Order} (hj : orders[j]? = some o) (hne : j ≠ newId) (he : elig newO o) :
    ¬ lt2 newO.order_type o.price o.timestamp
        (findBest orders newId newO).price (findBest orders newId newO).ts := by
  refine scanFrom_opt newId newO orders 0 _ j o hj ?_ he
  simpa using hne

/-- Completeness of `findBest`, under the price bound the `INT_MAX` sentinel
needs: if some eligible counter-order exists and every pool price lies in
`(0, INT_MAX)`, the scan selects something. -/
theorem findBest_complete {orders : List Order} {newId : Nat} {newO : Order}
    (hp : ∀ o ∈ orders, 0 < o.price ∧ o.price < (C_INT_MAX : ℚ))
    {j : Nat} {o : Order} (hj : orders[j]? = some o) (hne : j ≠ newId) (he : elig newO o) :
    (findBest orders newId newO).id ≠ -1 := by
  intro hid
  obtain ⟨-, hall⟩ := scanFrom_id_neg newId newO orders 0
    ⟨-1, if newO.order_type = 0 then (C_INT_MAX : ℚ) else -(C_INT_MAX : ℚ), C_INT_MAX⟩ hid
  refine hall j o hj (by simpa using hne) he ?_
  obtain ⟨hbound₁, hbound₂⟩ := hp o (List.getElem?_mem hj)
  unfold lt2
  rcases he.2.2 with ⟨h0, -, -⟩ | ⟨h1, -, -⟩
  · rw [if_pos h0]
    left
    have hip : BestMatch.price ⟨-1, if newO.order_type = 0 then (C_INT_MAX : ℚ)
        else -(C_INT_MAX : ℚ), C_INT_MAX⟩ = if newO.order_type = 0 then (C_INT_MAX : ℚ)
        else -(C_INT_MAX : ℚ) := rfl
    rw [hip, if_pos h0]
    exact hbound₂
  · rw [if_neg (by rw [h1]; norm_num)]
    left
    have hip : BestMatch.price ⟨-1, if newO.order_type = 0 then (C_INT_MAX : ℚ)
        else -(C_INT_MAX : ℚ), C_INT_MAX⟩ = if newO.order_type = 0 then (C_INT_MAX : ℚ)
        else -(C_INT_MAX : ℚ) := rfl
    rw [hip, if_neg (by rw [h1]; norm_num)]
    have : (0 : ℚ) < C_INT_MAX := by norm_num [C_INT_MAX]
    linarith

/-- Execution of a found match, as the source performs it: matched quantity is
`min` of the two remaining quantities, both are decremented, an order reaching
zero is deactivated and `order_count` decremented for it, and the emitted trade
carries the matched quantity, the triggering order's ticker key, and the resting
candidate's price (`best_match_price`). -/
theorem matchOrder_run {s : EngineState} {newId k : Nat} {newO mo : Order}
    (hn : s.orders[newId]? = some newO) (hactive : newO.active = true)
    (hk : (findBest s.orders newId newO).id = (k : Int))
    (hm : s.orders[k]? = some mo)
    (hq : 0 < newO.quantity) (hmq : 0 < mo.quantity) :
    k ≠ newId ∧ mo.active = true ∧ elig newO mo ∧
    matchOrder s newId =
      (⟨(s.orders.set newId
            (if newO.quantity - (min newO.quantity mo.quantity) ≤ 0 then
              { newO with
                quantity := newO.quantity - (min newO.quantity mo.quantity)
                active := false }
            else { newO with
              quantity := newO.quantity - (min newO.quantity mo.quantity) })).set k
            (if mo.quantity - (min newO.quantity mo.quantity) ≤ 0 then
              { mo with
                quantity := mo.quantity - (min newO.quantity mo.quantity)
                active := false }
            else { mo with
              quantity := mo.quantity - (min newO.quantity mo.quantity) }),
          s.order_count -
            ((if newO.quantity - (min newO.quantity mo.quantity) ≤ 0 then 1 else 0) +
              (if mo.quantity - (min newO.quantity mo.quantity) ≤ 0 then 1 else 0))⟩,
        some ⟨min newO.quantity mo.quantity, newO.ticker, mo.price⟩) := by
  have hneg : (findBest s.orders newId newO).id ≠ -1 := by
    rw [hk]
    omega
  obtain ⟨k', mo', hk', hkne', hm', he', hp', ht'⟩ := findBest_sound hneg
  have hkk : k' = k := by
    rw [hk] at hk'
    exact_mod_cast hk'.symm
  rw [hkk] at hkne' hm'
  rw [hm] at hm'
  injection hm' with hmo
  subst hmo
  have htn : (findBest s.orders newId newO).id.toNat = k := by
    rw [hk]
    simp
  refine ⟨hkne', he'.1, he', ?_⟩
  simp only [matchOrder, hn, if_neg (by simp [hactive] : ¬ newO.active = false), if_neg hneg,
    htn, hm,
    if_neg (by simp [hactive, he'.1] : ¬ (newO.active = false ∨ mo.active = false)),
    if_neg (by omega : ¬ (newO.quantity ≤ 0 ∨ mo.quantity ≤ 0)), hp']

/-- Every call to `matchOrder` either leaves the state unchanged with no trade,
or finds an eligible counter-order in a different slot, both orders active with
positive remaining quantities (so `matchOrder_run` describes the effect). -/
theorem matchOrder_shape (s : EngineState) (newId : Nat) :
    matchOrder s newId = (s, none) ∨
      ∃ (newO mo : Order) (k : Nat),
        s.orders[newId]? = some newO ∧ newO.active = true ∧
        (findBest s.orders newId newO).id = (k : Int) ∧
        s.orders[k]? = some mo ∧ 0 < newO.quantity ∧ 0 < mo.quantity := by
  cases hn : s.orders[newId]? with
  | none => exact Or.inl (by simp [matchOrder, hn])
  | some newO =>
    by_cases hact : newO.active = false
    · exact Or.inl (by simp [matchOrder, hn, hact])
    · by_cases hid : (findBest s.orders newId newO).id = -1
      · exact Or.inl (by simp only [matchOrder, hn, if_neg hact, hid, ite_true])
      · obtain ⟨k, mo, hk, hkne, hm, he, hp, ht⟩ := findBest_sound hid
        have htn : (findBest s.orders newId newO).id.toNat = k := by
          rw [hk]
          simp
        by_cases hq : newO.quantity ≤ 0 ∨ mo.quantity ≤ 0
        · refine Or.inl ?_
          simp only [matchOrder, hn, if_neg hact, if_neg hid, htn, hm,
            if_neg (by simp [bool_eq_true_of_not_false hact, he.1] :
              ¬ (newO.active = false ∨ mo.active = false)),
            if_pos hq]
        · push_neg at hq
          exact Or.inr ⟨newO, mo, k, rfl, bool_eq_true_of_not_false hact, hk, hm,
            hq.1, hq.2⟩

/-- Frame property of `matchOrder`: at most two slots (the triggering one and the
selected counter-order's) change, the pool length (hence the slot cursor) is
unchanged, and every order's immutable fields (side, ticker, price, timestamp)
are unchanged in every slot. -/
theorem matchOrder_frame (s : EngineState) (newId : Nat) :
    ∃ k : Nat,
      (matchOrder s newId).1.orders.length = s.orders.length ∧
      (∀ j : Nat, j ≠ newId → j ≠ k → (matchOrder s newId).1.orders[j]? = s.orders[j]?) ∧
      ∀ (j : Nat) (o o' : Order), s.orders[j]? = some o →
        (matchOrder s newId).1.orders[j]? = some o' →
        o'.order_type = o.order_type ∧ o'.ticker = o.ticker ∧ o'.price = o.price ∧
          o'.timestamp = o.timestamp := by
  rcases matchOrder_shape s newId with h | ⟨newO, mo, k, hn, hact, hk, hm, hq, hmq⟩
  · refine ⟨newId, ?_, ?_, ?_⟩
    · rw [h]
    · intro j _ _
      rw [h]
    · intro j o o' hj hj'
      rw [h] at hj'
      rw [hj] at hj'
      injection hj' with ho
      rw [ho]
      exact ⟨rfl, rfl, rfl, rfl⟩
  · obtain ⟨hkne, hmact, he, hrun⟩ := matchOrder_run hn hact hk hm hq hmq
    have hklt : k < s.orders.length := (List.getElem?_eq_some_iff.mp hm).1
    have hnlt : newId < s.orders.length := (List.getElem?_eq_some_iff.mp hn).1
    refine ⟨k, ?_, ?_, ?_⟩
    · rw [hrun]
      simp
    · intro j hjn hjk
      rw [hrun]
      simp only
      rw [List.getElem?_set_ne (Ne.symm hjk), List.getElem?_set_ne (Ne.symm hjn)]
    · intro j o o' hj hj'
      rw [hrun] at hj'
      simp only at hj'
      by_cases hjk : j = k
      · subst hjk
        rw [List.getElem?_set_self (by simpa using hklt)] at hj'
        rw [hm] at hj
        injection hj with ho
        injection hj' with ho'
        rw [← ho, ← ho']
        split_ifs <;> exact ⟨rfl, rfl, rfl, rfl⟩
      · rw [List.getElem?_set_ne (Ne.symm hjk)] at hj'
        by_cases hjn : j = newId
        · subst hjn
          rw [List.getElem?_set_self hnlt] at hj'
          rw [hn] at hj
          injection hj with ho
          injection hj' with ho'
          rw [← ho, ← ho']
          split_ifs <;> exact ⟨rfl, rfl, rfl, rfl⟩
        · rw [List.getElem?_set_ne (Ne.symm hjn)] at hj'
          rw [hj] at hj'
          injection hj' with ho
          rw [ho]
          exact ⟨rfl, rfl, rfl, rfl⟩

/-- `matchOrder` never touches a slot holding an inactive order. -/
theorem matchOrder_preserves_inactive {s : EngineState} {newId j : Nat} {o : Order}
    (hj : s.orders[j]? = some o) (hina : o.active = false) :
    (matchOrder s newId).1.orders[j]? = some o := by
  rcases matchOrder_shape s newId with h | ⟨newO, mo, k, hn, hact, hk, hm, hq, hmq⟩
  · rw [h]
    exact hj
  · obtain ⟨hkne, hmact, he, hrun⟩ := matchOrder_run hn hact hk hm hq hmq
    have hjk : j ≠ k := by
      intro hE
      subst hE
      rw [hm] at hj
      injection hj with ho
      rw [ho] at hmact
      rw [hmact] at hina
      exact Bool.noConfusion hina
    have hjn : j ≠ newId := by
      intro hE
      subst hE
      rw [hn] at hj
      injection hj with ho
      rw [ho] at hact
      rw [hact] at hina
      exact Bool.noConfusion hina
    rw [hrun]
    simp only
    rw [List.getElem?_set_ne (Ne.symm hjk), List.getElem?_set_ne (Ne.symm hjn)]
    exact hj

theorem countActive_cons (o : Order) (l : List Order) :
    countActive (o :: l) = (if o.active = true then 1 else 0) + countActive l := by
  unfold countActive
  rw [List.filter_cons]
  split_ifs with h
  · simp
    omega
  · simp

theorem countActive_nonneg (l : List Order) : 0 ≤ countActive l := by
  unfold countActive
  exact Int.natCast_nonneg _

theorem countActive_le_length (l : List Order) : countActive l ≤ (l.length : Int) := by
  unfold countActive
  exact_mod_cast List.length_filter_le _ _

theorem countActive_set : ∀ (l : List Order) (j : Nat) {o : Order} (a : Order),
    l[j]? = some o →
    countActive (l.set j a) =
      countActive l + (if a.active = true then 1 else 0) - (if o.active = true then 1 else 0)
  | [], j, o, a, h => by simp at h
  | b :: rest, 0, o, a, h => by
    have hbo : b = o := by simpa using h
    subst hbo
    show countActive (a :: rest) = _
    rw [countActive_cons, countActive_cons]
    split_ifs <;> omega
  | b :: rest, j + 1, o, a, h => by
    have h' : rest[j]? = some o := by simpa using h
    show countActive (b :: rest.set j a) = _
    rw [countActive_cons, countActive_cons, countActive_set rest j a h']
    split_ifs <;> omega

theorem countActive_append_singleton (l : List Order) (a : Order) :
    countActive (l ++ [a]) = countActive l + (if a.active = true then 1 else 0) := by
  unfold countActive
  rw [List.filter_append, List.filter_cons]
  split_ifs with h
  · simp
  · simp

/-- `matchOrder` keeps `order_count` equal to the number of active orders in the
pool: the two `fetch_sub` decrements exactly mirror the deactivations. -/
theorem matchOrder_inv {s : EngineState} {newId : Nat}
    (hinv : s.order_count = countActive s.orders) :
    (matchOrder s newId).1.order_count = countActive (matchOrder s newId).1.orders := by
  rcases matchOrder_shape s newId with h | ⟨newO, mo, k, hn, hact, hk, hm, hq, hmq⟩
  · rw [h]
    exact hinv
  · obtain ⟨hkne, hmact, he, hrun⟩ := matchOrder_run hn hact hk hm hq hmq
    rw [hrun]
    simp only
    have hm' : (s.orders.set newId (if newO.quantity - (min newO.quantity mo.quantity) ≤ 0 then
        { newO with
          quantity := newO.quantity - (min newO.quantity mo.quantity)
          active := false }
      else { newO with
        quantity := newO.quantity - (min newO.quantity mo.quantity) }))[k]? = some mo := by
      rw [List.getElem?_set_ne (Ne.symm hkne)]
      exact hm
    rw [countActive_set _ k _ hm', countActive_set _ newId _ hn, ← hinv]
    split_ifs <;> simp_all <;> omega

/-- If no eligible counter-order exists for the triggering order, `matchOrder`
returns the state unchanged and emits no trade. -/
theorem matchOrder_noElig {s : EngineState} {newId : Nat}
    (h : ∀ newO : Order, s.orders[newId]? = some newO →
      ∀ (j : Nat) (o : Order), s.orders[j]? = some o → j ≠ newId → ¬ elig newO o) :
    matchOrder s newId = (s, none) := by
  cases hn : s.orders[newId]? with
  | none => simp [matchOrder, hn]
  | some newO =>
    by_cases hact : newO.active = false
    · simp [matchOrder, hn, hact]
    · have hid : (findBest s.orders newId newO).id = -1 := by
        by_contra hne
        obtain ⟨k, mo, hk, hkne, hm, he, hp, ht⟩ := findBest_sound hne
        exact h newO hn k mo hm hkne he
      simp only [matchOrder, hn, if_neg hact, hid, ite_true]

/-- An inactive slot is never the scan's selection. -/
theorem findBest_not_inactive {orders : List Order} {newId j : Nat} {newO o : Order}
    (hj : orders[j]? = some o) (hina : o.active = false) :
    (findBest orders newId newO).id ≠ (j : Int) := by
  intro hsel
  have hneg : (findBest orders newId newO).id ≠ -1 := by
    rw [hsel]
    omega
  obtain ⟨k, mo, hk, hkne, hm, he, hp, ht⟩ := findBest_sound hneg
  have hkj : k = j := by
    rw [hsel] at hk
    exact_mod_cast hk.symm
  subst hkj
  rw [hm] at hj
  injection hj with ho
  rw [ho] at he
  rw [he.1] at hina
  exact Bool.noConfusion hina

/-- `addOrder` either rejects with no state change, or appends the validated
order in the fresh slot, bumps the counter, and runs one match attempt. -/
theorem addOrder_cases (s : EngineState) (t : Int) (sym : List Int) (q : Int) (p : ℚ)
    (ts : Int) :
    addOrder s t sym q p ts = (s, false, none) ∨
      (s.orders.length < MAX_ORDERS ∧
        addOrder s t sym q p ts =
          ((matchOrder ⟨s.orders ++ [⟨t, ticker_to_index sym, q, p, ts, true⟩],
              s.order_count + 1⟩ s.orders.length).1, true,
            (matchOrder ⟨s.orders ++ [⟨t, ticker_to_index sym, q, p, ts, true⟩],
              s.order_count + 1⟩ s.orders.length).2)) := by
  simp only [addOrder]
  split_ifs with h1 h2 h3
  · exact Or.inl rfl
  · exact Or.inl rfl
  · exact Or.inl rfl
  · exact Or.inr ⟨by omega, rfl⟩

/-- `addOrder` never touches a slot holding an inactive order. -/
theorem addOrder_preserves_inactive {s : EngineState} {j : Nat} {o : Order}
    (hj : s.orders[j]? = some o) (hina : o.active = false) (t : Int) (sym : List Int)
    (q : Int) (p : ℚ) (ts : Int) :
    (addOrder s t sym q p ts).1.orders[j]? = some o := by
  rcases addOrder_cases s t sym q p ts with h | ⟨hlen, h⟩
  · rw [h]
    exact hj
  · rw [h]
    refine matchOrder_preserves_inactive ?_ hina
    show (s.orders ++ [_])[j]? = some o
    rw [List.getElem?_append_left (List.getElem?_eq_some_iff.mp hj).1]
    exact hj

theorem runEngine_cons (s : EngineState) (r : Req) (reqs : List Req) :
    runEngine s (r :: reqs) =
      runEngine (addOrder s r.order_type r.symbol r.quantity r.price r.ts).1 reqs := rfl

/-- Once a slot holds an inactive order, no sequence of further admissions ever
changes that slot. -/
theorem runEngine_preserves_inactive {j : Nat} {o : Order} (hina : o.active = false) :
    ∀ (reqs : List Req) (s : EngineState), s.orders[j]? = some o →
      (runEngine s reqs).orders[j]? = some o
  | [], _, hj => hj
  | r :: reqs, s, hj =>
    runEngine_preserves_inactive hina reqs _
      (addOrder_preserves_inactive hj hina r.order_type r.symbol r.quantity r.price r.ts)

/-- `addOrder` keeps `order_count` equal to the number of active orders. -/
theorem addOrder_inv {s : EngineState} (hinv : s.order_count = countActive s.orders)
    (t : Int) (sym : List Int) (q : Int) (p : ℚ) (ts : Int) :
    (addOrder s t sym q p ts).1.order_count =
      countActive (addOrder s t sym q p ts).1.orders := by
  rcases addOrder_cases s t sym q p ts with h | ⟨hlen, h⟩
  · rw [h]
    exact hinv
  · rw [h]
    refine matchOrder_inv ?_
    show s.order_count + 1 = countActive (s.orders ++ [_])
    rw [countActive_append_singleton, hinv]
    simp

theorem runEngine_inv :
    ∀ (reqs : List Req) (s : EngineState), s.order_count = countActive s.orders →
      (runEngine s reqs).order_count = countActive (runEngine s reqs).orders
  | [], _, hinv => hinv
  | r :: reqs, s, hinv =>
    runEngine_inv reqs _ (addOrder_inv hinv r.order_type r.symbol r.quantity r.price r.ts)

/-- Rejection on a full pool: once the cursor has reached capacity, every call
returns `false` and leaves the state untouched. -/
theorem addOrder_reject_full {s : EngineState} (h : MAX_ORDERS ≤ s.orders.length)
    (t : Int) (sym : List Int) (q : Int) (p : ℚ) (ts : Int) :
    addOrder s t sym q p ts = (s, false, none) := by
  simp only [addOrder]
  split_ifs with h1 h2
  · rfl
  · rfl
  · rfl

theorem runEngine_full {s : EngineState} (h : MAX_ORDERS ≤ s.orders.length) :
    ∀ reqs : List Req, runEngine s reqs = s
  | [] => rfl
  | r :: reqs => by
    rw [runEngine_cons,
      addOrder_reject_full h r.order_type r.symbol r.quantity r.price r.ts]
    exact runEngine_full h reqs

theorem tickerSum_nonneg :
    ∀ (fuel : Nat) (sym : List Int), (∀ c ∈ sym, 0 ≤ c) → 0 ≤ tickerSum fuel sym
  | fuel, [], _ => by cases fuel <;> simp [tickerSum]
  | 0, _ :: _, _ => by simp [tickerSum]
  | fuel + 1, c :: rest, h => by
    unfold tickerSum
    split_ifs with hc
    · exact le_refl 0
    · have h1 := h c (by simp)
      have h2 := tickerSum_nonneg fuel rest (fun x hx => h x (by simp [hx]))
      omega

/-- For symbols of non-negative character values, the hash lands in `[0, 1024)`. -/
theorem ticker_range {sym : List Int} (h : ∀ c ∈ sym, 0 ≤ c) :
    0 ≤ ticker_to_index sym ∧ ticker_to_index sym < NUM_TICKERS := by
  unfold ticker_to_index
  constructor
  · exact Int.tmod_nonneg _ (tickerSum_nonneg 4 sym h)
  · exact Int.tmod_lt_of_pos _ (by norm_num [NUM_TICKERS])

theorem acceptedCount_cons (s : EngineState) (r : Req) (reqs : List Req) :
    acceptedCount s (r :: reqs) =
      (if (addOrder s r.order_type r.symbol r.quantity r.price r.ts).2.1 = true then 1 else 0) +
        acceptedCount (addOrder s r.order_type r.symbol r.quantity r.price r.ts).1 reqs := rfl

/-- The pool length after a run is the old length plus the number of accepted
admissions: every accepted call claims exactly one fresh slot, rejected calls
claim none. -/
theorem runEngine_length :
    ∀ (reqs : List Req) (s : EngineState),
      (runEngine s reqs).orders.length = s.orders.length + acceptedCount s reqs
  | [], s => rfl
  | r :: reqs, s => by
    rw [runEngine_cons, runEngine_length reqs, acceptedCount_cons]
    rcases addOrder_cases s r.order_type r.symbol r.quantity r.price r.ts with h | ⟨hlen, h⟩
    · simp [h]
    · obtain ⟨k, hl, -, -⟩ :=
        matchOrder_frame ⟨s.orders ++ [⟨r.order_type, ticker_to_index r.symbol, r.quantity,
          r.price, r.ts, true⟩], s.order_count + 1⟩ s.orders.length
      simp [h, hl] <;> omega

/-- C1 (corrected).  As stated the claim fails: `best_match_price` starts at the
`INT_MAX` sentinel, so for a Buy an eligible Sell priced exactly `INT_MAX` whose
timestamp is ≥ `INT_MAX` (the engine's own microsecond timestamps all are) is
never selected, and no match happens although an eligible counter-order exists.
Amended with the bound the sentinel forces — every pool price in `(0, INT_MAX)` —
the claim holds: the scan finds a candidate exactly when an eligible counter-order
exists, and the selected candidate is eligible and optimal: no eligible
counter-order has a strictly better price, nor an equal price with a strictly
earlier timestamp. -/
theorem claim_C1 {s : EngineState} {newId : Nat} {newO : Order}
    (hp : ∀ o ∈ s.orders, 0 < o.price ∧ o.price < (C_INT_MAX : ℚ))
    (_hn : s.orders[newId]? = some newO) :
    ((∃ (j : Nat) (o : Order), s.orders[j]? = some o ∧ j ≠ newId ∧ elig newO o) →
      (findBest s.orders newId newO).id ≠ -1) ∧
    ((findBest s.orders newId newO).id ≠ -1 →
      ∃ (k : Nat) (mo : Order), (findBest s.orders newId newO).id = (k : Int) ∧ k ≠ newId ∧
        s.orders[k]? = some mo ∧ elig newO mo ∧
        ∀ (j : Nat) (o : Order), s.orders[j]? = some o → j ≠ newId → elig newO o →
          ¬ lt2 newO.order_type o.price o.timestamp mo.price mo.timestamp) := by
  constructor
  · rintro ⟨j, o, hj, hne, he⟩
    exact findBest_complete hp hj hne he
  · intro hne
    obtain ⟨k, mo, hk, hkne, hm, he, hpq, hts⟩ := findBest_sound hne
    refine ⟨k, mo, hk, hkne, hm, he, ?_⟩
    intro j o hj hjne hje
    have hopt := findBest_opt hj hjne hje
    rwa [hpq, hts] at hopt

/-- C1 counterexample: one resting Sell at price `INT_MAX` with timestamp
`INT_MAX + 1`, incoming Buy at the same price.  The Sell is eligible, yet the
scan selects nothing and the match attempt has no effect. -/
theorem claim_C1_counterexample :
    elig ⟨0, 0, 10, 2147483647, 2147483649, true⟩ ⟨1, 0, 10, 2147483647, 2147483648, true⟩ ∧
    (findBest [⟨1, 0, 10, 2147483647, 2147483648, true⟩,
        ⟨0, 0, 10, 2147483647, 2147483649, true⟩] 1
      ⟨0, 0, 10, 2147483647, 2147483649, true⟩).id = -1 ∧
    matchOrder ⟨[⟨1, 0, 10, 2147483647, 2147483648, true⟩,
        ⟨0, 0, 10, 2147483647, 2147483649, true⟩], 2⟩ 1 =
      (⟨[⟨1, 0, 10, 2147483647, 2147483648, true⟩,
        ⟨0, 0, 10, 2147483647, 2147483649, true⟩], 2⟩, none) := by
  refine ⟨by decide, by decide, ?_⟩
  decide

/-- C1 witness: two resting Sells at 9.50 (= 19/2) with timestamps 10 < 20 and
an incoming Buy at 9.50 in slot 2: the scan selects slot 0, the Sell with the
earlier timestamp. -/
theorem claim_C1_witness :
    (findBest [⟨1, 65, 5, mkRat 19 2, 10, true⟩, ⟨1, 65, 5, mkRat 19 2, 20, true⟩,
        ⟨0, 65, 5, mkRat 19 2, 30, true⟩] 2 ⟨0, 65, 5, mkRat 19 2, 30, true⟩).id ≠ -1 ∧
    (findBest [⟨1, 65, 5, mkRat 19 2, 10, true⟩, ⟨1, 65, 5, mkRat 19 2, 20, true⟩,
        ⟨0, 65, 5, mkRat 19 2, 30, true⟩] 2 ⟨0, 65, 5, mkRat 19 2, 30, true⟩).id = 0 :=
  ⟨(@claim_C1 ⟨[⟨1, 65, 5, mkRat 19 2, 10, true⟩, ⟨1, 65, 5, mkRat 19 2, 20, true⟩,
      ⟨0, 65, 5, mkRat 19 2, 30, true⟩], 3⟩ 2 ⟨0, 65, 5, mkRat 19 2, 30, true⟩
      (by decide) (by decide)).1
      ⟨0, ⟨1, 65, 5, mkRat 19 2, 10, true⟩, by decide, by decide, by decide⟩,
    by decide⟩

/-- C2 (confirmed).  When the scan has selected a candidate (slot `k` holding
`mo`) for the active triggering order `newO`, and both remaining quantities are
positive, the trade executes: matched quantity `min`, both quantities
decremented, each order reaching zero is deactivated and the counter is
decremented for it, and the emitted record carries the matched quantity, the
ticker key, and the resting candidate's price. -/
theorem claim_C2 {s : EngineState} {newId k : Nat} {newO mo : Order}
    (hn : s.orders[newId]? = some newO) (hactive : newO.active = true)
    (hk : (findBest s.orders newId newO).id = (k : Int))
    (hm : s.orders[k]? = some mo)
    (hq : 0 < newO.quantity) (hmq : 0 < mo.quantity) :
    k ≠ newId ∧ mo.active = true ∧ elig newO mo ∧
    matchOrder s newId =
      (⟨(s.orders.set newId
            (if newO.quantity - (min newO.quantity mo.quantity) ≤ 0 then
              { newO with
                quantity := newO.quantity - (min newO.quantity mo.quantity)
                active := false }
            else { newO with
              quantity := newO.quantity - (min newO.quantity mo.quantity) })).set k
            (if mo.quantity - (min newO.quantity mo.quantity) ≤ 0 then
              { mo with
                quantity := mo.quantity - (min newO.quantity mo.quantity)
                active := false }
            else { mo with
              quantity := mo.quantity - (min newO.quantity mo.quantity) }),
          s.order_count -
            ((if newO.quantity - (min newO.quantity mo.quantity) ≤ 0 then 1 else 0) +
              (if mo.quantity - (min newO.quantity mo.quantity) ≤ 0 then 1 else 0))⟩,
        some ⟨min newO.quantity mo.quantity, newO.ticker, mo.price⟩) :=
  matchOrder_run hn hactive hk hm hq hmq

/-- C2 witness: resting Sell(qty 50, price 10) in slot 0, incoming Buy(qty 30,
price 10) in slot 1: exactly one trade of 30 at 10; the Sell keeps quantity 20
and stays active, the Buy reaches 0 and goes inactive; the counter drops by 1. -/
theorem claim_C2_witness :
    matchOrder ⟨[⟨1, 65, 50, 10, 100, true⟩, ⟨0, 65, 30, 10, 200, true⟩], 2⟩ 1 =
      (⟨[⟨1, 65, 20, 10, 100, true⟩, ⟨0, 65, 0, 10, 200, false⟩], 1⟩,
        some ⟨30, 65, 10⟩) := by
  have h := @claim_C2 ⟨[⟨1, 65, 50, 10, 100, true⟩, ⟨0, 65, 30, 10, 200, true⟩], 2⟩ 1 0
    ⟨0, 65, 30, 10, 200, true⟩ ⟨1, 65, 50, 10, 100, true⟩
    (by decide) (by decide) (by decide) (by decide) (by decide) (by decide)
  rw [h.2.2.2]
  decide

/-- C3 (confirmed).  Any invalid input — side not in {0, 1}, quantity ≤ 0, or
price ≤ 0 — is rejected with `false`, and the returned state is the argument
state itself: no slot written, cursor not advanced, counter unchanged. -/
theorem claim_C3 {s : EngineState} {t : Int} {sym : List Int} {q : Int} {p : ℚ}
    {ts : Int} (h : (t ≠ 0 ∧ t ≠ 1) ∨ q ≤ 0 ∨ p ≤ 0) :
    addOrder s t sym q p ts = (s, false, none) := by
  simp only [addOrder]
  rcases h with h | h
  · rw [if_pos h]
  · by_cases hv : t ≠ 0 ∧ t ≠ 1
    · rw [if_pos hv]
    · rw [if_neg hv, if_pos h]

/-- C3 witness: side 2 is invalid and rejected on a fresh engine. -/
theorem claim_C3_witness : addOrder initEngine 2 [65] 5 1 0 = (initEngine, false, none) :=
  claim_C3 (Or.inl (by decide))

/-- C4 (confirmed).  With the cursor at capacity, every call (valid input or
not) rejects and returns the state unchanged, and any further sequence of
admissions leaves the state — in particular every written slot and the cursor —
exactly as it is: capacity exhaustion is terminal. -/
theorem claim_C4 {s : EngineState} (h : MAX_ORDERS ≤ s.orders.length) (t : Int)
    (sym : List Int) (q : Int) (p : ℚ) (ts : Int) (reqs : List Req) :
    addOrder s t sym q p ts = (s, false, none) ∧ runEngine s reqs = s :=
  ⟨addOrder_reject_full h t sym q p ts, runEngine_full h reqs⟩

/-- C4 witness: a pool with all 10000 slots claimed rejects a valid admission
and an empty further run changes nothing. -/
theorem claim_C4_witness :
    addOrder ⟨List.replicate 10000 ⟨0, 0, 0, 0, 0, false⟩, 0⟩ 0 [65] 5 1 0 =
      (⟨List.replicate 10000 ⟨0, 0, 0, 0, 0, false⟩, 0⟩, false, none) ∧
    runEngine ⟨List.replicate 10000 ⟨0, 0, 0, 0, 0, false⟩, 0⟩ [] =
      ⟨List.replicate 10000 ⟨0, 0, 0, 0, 0, false⟩, 0⟩ :=
  by
  apply claim_C4
  show MAX_ORDERS ≤ (List.replicate 10000 (⟨0, 0, 0, 0, 0, false⟩ : Order)).length
  rw [List.length_replicate]
  decide

/-- C5 (corrected).  `ticker_to_index` is a total deterministic pure function,
but its range claim fails for arbitrary byte values: on the reference platform
`char` is signed, C's `%` truncates toward zero, so a symbol containing a byte
≥ 0x80 (negative `char`) can hash to a negative key.  Amended: for every symbol
whose character values are non-negative (all 7-bit ASCII symbols, and every
symbol on unsigned-`char` platforms) the key lies in `[0, 1024)`. -/
theorem claim_C5 {sym : List Int} (h : ∀ c ∈ sym, 0 ≤ c) :
    0 ≤ ticker_to_index sym ∧ ticker_to_index sym < NUM_TICKERS :=
  ticker_range h

/-- C5 counterexample: the one-byte symbol 0xFF (`char` value -1) hashes to -1,
outside `[0, 1024)`. -/
theorem claim_C5_counterexample :
    ticker_to_index [-1] = -1 ∧
    ¬ (0 ≤ ticker_to_index [-1] ∧ ticker_to_index [-1] < NUM_TICKERS) := by
  decide

/-- C5 witness: the ASCII symbol "ABC" hashes into range. -/
theorem claim_C5_witness :
    0 ≤ ticker_to_index [65, 66, 67] ∧ ticker_to_index [65, 66, 67] < NUM_TICKERS :=
  claim_C5 (by decide)

/-- C6 (confirmed).  One `matchOrder` call mutates at most two slots — the
triggering order's and one counter-order's — and only their quantity/active
fields: the pool length (the slot cursor) is unchanged, every other slot is
unchanged, and side, ticker, price and timestamp are unchanged in every slot.
At most one trade is executed per call by construction (the returned
`Option Trade`). -/
theorem claim_C6 (s : EngineState) (newId : Nat) :
    ∃ k : Nat,
      (matchOrder s newId).1.orders.length = s.orders.length ∧
      (∀ j : Nat, j ≠ newId → j ≠ k → (matchOrder s newId).1.orders[j]? = s.orders[j]?) ∧
      ∀ (j : Nat) (o o' : Order), s.orders[j]? = some o →
        (matchOrder s newId).1.orders[j]? = some o' →
        o'.order_type = o.order_type ∧ o'.ticker = o.ticker ∧ o'.price = o.price ∧
          o'.timestamp = o.timestamp :=
  matchOrder_frame s newId

/-- C7 (confirmed).  If no written slot other than the triggering one holds an
eligible counter-order, the match attempt leaves the state untouched and emits
no trade. -/
theorem claim_C7 {s : EngineState} {newId : Nat} {newO : Order}
    (hn : s.orders[newId]? = some newO)
    (h : ∀ (j : Nat) (o : Order), s.orders[j]? = some o → j ≠ newId → ¬ elig newO o) :
    matchOrder s newId = (s, none) := by
  apply matchOrder_noElig
  intro newO' hn' j o hj hne
  rw [hn] at hn'
  injection hn' with hE
  subst hE
  exact h j o hj hne

/-- C7 witness: a resting Sell at 6.00 and an incoming Buy at 5.00 on the same
ticker: no trade, both orders untouched and still active. -/
theorem claim_C7_witness :
    matchOrder ⟨[⟨1, 65, 5, 6, 10, true⟩, ⟨0, 65, 5, 5, 20, true⟩], 2⟩ 1 =
      (⟨[⟨1, 65, 5, 6, 10, true⟩, ⟨0, 65, 5, 5, 20, true⟩], 2⟩, none) := by
  apply @claim_C7 ⟨[⟨1, 65, 5, 6, 10, true⟩, ⟨0, 65, 5, 5, 20, true⟩], 2⟩ 1
    ⟨0, 65, 5, 5, 20, true⟩ (by decide)
  intro j o hj hne
  match j with
  | 0 =>
    have ho : (⟨1, 65, 5, 6, 10, true⟩ : Order) = o := by simpa using hj
    rw [← ho]
    decide
  | 1 => exact absurd rfl hne
  | j + 2 => simp at hj

/-- C8 (confirmed).  Once a written slot holds an inactive order, no sequence of
further admissions ever changes that slot (its quantity and active flag are
never mutated again), and in every state reachable by further admissions the
scan never selects that slot as the match candidate. -/
theorem claim_C8 {s : EngineState} {j : Nat} {o : Order}
    (hj : s.orders[j]? = some o) (hina : o.active = false) :
    ∀ reqs : List Req,
      (runEngine s reqs).orders[j]? = some o ∧
      ∀ (newId : Nat) (newO : Order),
        (findBest (runEngine s reqs).orders newId newO).id ≠ (j : Int) := by
  intro reqs
  have hpres := runEngine_preserves_inactive hina reqs s hj
  exact ⟨hpres, fun newId newO => findBest_not_inactive hpres hina⟩

/-- C8 witness: a filled (inactive) Buy in slot 0 survives a further Sell
admission untouched and is not selected by that Sell's scan. -/
theorem claim_C8_witness :
    (runEngine ⟨[⟨0, 65, 0, 5, 10, false⟩], 1⟩ [⟨1, [65], 5, 5, 20⟩]).orders[0]? =
      some ⟨0, 65, 0, 5, 10, false⟩ ∧
    (findBest (runEngine ⟨[⟨0, 65, 0, 5, 10, false⟩], 1⟩
        [⟨1, [65], 5, 5, 20⟩]).orders 1 ⟨1, 65, 5, 5, 20, true⟩).id ≠ (0 : Int) := by
  have H := @claim_C8 ⟨[⟨0, 65, 0, 5, 10, false⟩], 1⟩ 0 ⟨0, 65, 0, 5, 10, false⟩
    (by decide) (by decide) [⟨1, [65], 5, 5, 20⟩]
  exact ⟨H.1, H.2 1 ⟨1, 65, 5, 5, 20, true⟩⟩

/-- C9 (confirmed).  After any sequence of admissions from a fresh engine,
`getOrderCount` is non-negative and bounded by the number of written slots,
which equals the number of accepted admissions ("total admitted so far"). -/
theorem claim_C9 (reqs : List Req) :
    0 ≤ getOrderCount (runEngine initEngine reqs) ∧
    getOrderCount (runEngine initEngine reqs) ≤
      ((runEngine initEngine reqs).orders.length : Int) ∧
    (runEngine initEngine reqs).orders.length = acceptedCount initEngine reqs := by
  have hinv := runEngine_inv reqs initEngine rfl
  refine ⟨?_, ?_, ?_⟩
  · show 0 ≤ (runEngine initEngine reqs).order_count
    rw [hinv]
    exact countActive_nonneg _
  · show (runEngine initEngine reqs).order_count ≤ _
    rw [hinv]
    exact countActive_le_length _
  · have h := runEngine_length reqs initEngine
    simpa [initEngine] using h

/-- C10 (confirmed).  Whenever a match attempt executes a trade, at least one of
the two matched orders ends with remaining quantity exactly zero and inactive
(the matched quantity is the minimum of the two), and neither remaining quantity
is negative afterwards. -/
theorem claim_C10 {s : EngineState} {newId : Nat} {s' : EngineState} {tr : Trade}
    (h : matchOrder s newId = (s', some tr)) :
    ∃ (k : Nat) (newO' mo' : Order), k ≠ newId ∧ s'.orders[newId]? = some newO' ∧
      s'.orders[k]? = some mo' ∧ 0 ≤ newO'.quantity ∧ 0 ≤ mo'.quantity ∧
      ((newO'.quantity = 0 ∧ newO'.active = false) ∨
        (mo'.quantity = 0 ∧ mo'.active = false)) := by
  rcases matchOrder_shape s newId with h0 | ⟨newO, mo, k, hn, hact, hk, hm, hq, hmq⟩
  · rw [h0] at h
    injection h with h1 h2
    exact Option.noConfusion h2
  · obtain ⟨hkne, hmact, he, hrun⟩ := matchOrder_run hn hact hk hm hq hmq
    rw [hrun] at h
    injection h with h1 h2
    have hklt : k < s.orders.length := (List.getElem?_eq_some_iff.mp hm).1
    have hnlt : newId < s.orders.length := (List.getElem?_eq_some_iff.mp hn).1
    have hA : s'.orders[newId]? =
        some (if newO.quantity - (min newO.quantity mo.quantity) ≤ 0 then
          { newO with
            quantity := newO.quantity - (min newO.quantity mo.quantity)
            active := false }
        else { newO with
          quantity := newO.quantity - (min newO.quantity mo.quantity) }) := by
      rw [← h1]
      simp only
      rw [List.getElem?_set_ne hkne, List.getElem?_set_self hnlt]
    have hB : s'.orders[k]? =
        some (if mo.quantity - (min newO.quantity mo.quantity) ≤ 0 then
          { mo with
            quantity := mo.quantity - (min newO.quantity mo.quantity)
            active := false }
        else { mo with
          quantity := mo.quantity - (min newO.quantity mo.quantity) }) := by
      rw [← h1]
      simp only
      exact List.getElem?_set_self (by simp [hklt])
    refine ⟨k, _, _, hkne, hA, hB, ?_, ?_, ?_⟩
    · split_ifs <;> show (0 : Int) ≤ _ - _ <;> omega
    · split_ifs <;> show (0 : Int) ≤ _ - _ <;> omega
    · rcases le_total newO.quantity mo.quantity with hc | hc
      · left
        rw [if_pos (by omega : newO.quantity - (min newO.quantity mo.quantity) ≤ 0)]
        constructor
        · show newO.quantity - (min newO.quantity mo.quantity) = 0
          omega
        · rfl
      · right
        rw [if_pos (by omega : mo.quantity - (min newO.quantity mo.quantity) ≤ 0)]
        constructor
        · show mo.quantity - (min newO.quantity mo.quantity) = 0
          omega
        · rfl

/-- C10 witness: the Sell(50)/Buy(30) execution ends with the Buy at exactly
zero and inactive, and no negative quantity. -/
theorem claim_C10_witness :
    ∃ (k : Nat) (newO' mo' : Order), k ≠ 1 ∧
      (⟨[⟨1, 65, 20, 10, 100, true⟩, ⟨0, 65, 0, 10, 200, false⟩], 1⟩ :
        EngineState).orders[1]? = some newO' ∧
      (⟨[⟨1, 65, 20, 10, 100, true⟩, ⟨0, 65, 0, 10, 200, false⟩], 1⟩ :
        EngineState).orders[k]? = some mo' ∧
      0 ≤ newO'.quantity ∧ 0 ≤ mo'.quantity ∧
      ((newO'.quantity = 0 ∧ newO'.active = false) ∨
        (mo'.quantity = 0 ∧ mo'.active = false)) :=
  @claim_C10 ⟨[⟨1, 65, 50, 10, 100, true⟩, ⟨0, 65, 30, 10, 200, true⟩], 2⟩ 1
    ⟨[⟨1, 65, 20, 10, 100, true⟩, ⟨0, 65, 0, 10, 200, false⟩], 1⟩ ⟨30, 65, 10⟩
    (by decide)
